import Mathlib

/-!
Shallow embedding of the `vacuum` command of wand-rs (src/commands/vacuum.rs).

File contents are modelled as `List Char`.  The source operates on ASCII
Solidity text, where Rust byte offsets and `chars()` indices coincide, so a
single character-indexed model represents both.  Loops of the source are
translated into structural recursions over the remaining suffix of the text,
carrying the absolute index alongside; `while pos < len` reading `s[pos]`
becomes recursion on `s.drop pos`.
-/

/-- Characters of the regex class `[a-zA-Z0-9_]` (a word character, as used by
the `\b` boundary and by the function-name capture group of
`extract_functions`). -/
def isWordChar (c : Char) : Bool := c.isAlpha || c.isDigit || c = '_'

/-- ASCII characters matched by the regex class `\s` and removed by
`str::trim`. -/
def isWs (c : Char) : Bool :=
  c = ' ' || c = '\t' || c = '\n' || c = '\r' || c = '\x0b' || c = '\x0c'

/-- Conversion from a string literal to the character-list model of file
text. -/
def cs (s : String) : List Char := s.toList

/-- One pass of Rust `str::matches(pat).count()` for a non-empty pattern:
leftmost, non-overlapping literal substring matches.  The structural fuel is
the text length, which always suffices because each step consumes at least one
character. -/
def countMatchesAux (pat : List Char) : Nat → List Char → Nat
  | _, [] => 0
  | 0, _ => 0
  | fuel + 1, c :: rest =>
    if pat.isPrefixOf (c :: rest) then
      1 + countMatchesAux pat fuel (rest.drop (pat.length - 1))
    else
      countMatchesAux pat fuel rest

/-- Rust `content.matches(pat).count()`: the number of leftmost,
non-overlapping literal substring matches of `pat` in `s` (an empty pattern
matches once at every character boundary). -/
def countMatches (pat s : List Char) : Nat :=
  if pat.isEmpty then s.length + 1 else countMatchesAux pat s.length s

/-- Number of positions at which `pat` occurs as a literal substring of `s`,
overlapping occurrences included.  Used to reason about which occurrences a
deletion removes. -/
def occCount (s pat : List Char) : Nat :=
  ((Finset.range (s.length + 1)).filter
    (fun i => pat.isPrefixOf (s.drop i) = true)).card

/-- Word-boundary test of the leading `\b` of the declaration patterns: since
the next pattern character `f` is a word character, the boundary holds exactly
when the preceding character (if any) is not a word character. -/
def boundaryOk : Option Char → Bool
  | none => true
  | some p => !isWordChar p

/-- Length of the match of `function\s+NAME\s*\(` at the start of `s` (the
pattern of `remove_unused_functions`, minus its leading `\b` which the caller
checks).  Greedy matching of `\s+`/`\s*` is exact here because the characters
that must follow (the name's first word character, `(`) are never
whitespace. -/
def matchDeclNamedLen (name : List Char) (s : List Char) : Option Nat :=
  if (cs "function").isPrefixOf s then
    let rest := s.drop 8
    let w := (rest.takeWhile isWs).length
    if w = 0 then none
    else
      let rest2 := rest.drop w
      if name.isPrefixOf rest2 then
        let rest3 := rest2.drop name.length
        let w2 := (rest3.takeWhile isWs).length
        match rest3.drop w2 with
        | '(' :: _ => some (8 + w + name.length + w2 + 1)
        | _ => none
      else none
  else none

/-- Leftmost match of `\bfunction\s+NAME\s*\(` scanning `s` with absolute
start index `i` and previous character `prev`; returns the match's start and
end offsets, as Rust `Regex::find` does.  `regex::escape` makes the name
literal, which the literal comparison models. -/
def findDeclAux (name : List Char) : List Char → Option Char → Nat → Option (Nat × Nat)
  | [], _, _ => none
  | c :: rest, prev, i =>
    if boundaryOk prev then
      match matchDeclNamedLen name (c :: rest) with
      | some len => some (i, i + len)
      | none => findDeclAux name rest (some c) (i + 1)
    else findDeclAux name rest (some c) (i + 1)

/-- Rust `function_pattern.find(&content)` for the removal pattern
`\bfunction\s+{name}\s*\(`. -/
def findDecl (name content : List Char) : Option (Nat × Nat) :=
  findDeclAux name content none 0

/-- Match of `function\s+([a-zA-Z0-9_]+)\s*\(` at the start of `s`, returning
the captured name and the match length.  The greedy capture takes the maximal
word-character run; shorter captures cannot succeed because the character
after a shorter capture is a word character, which is neither whitespace nor
`(`. -/
def matchAnyDeclLen (s : List Char) : Option (List Char × Nat) :=
  if (cs "function").isPrefixOf s then
    let rest := s.drop 8
    let w := (rest.takeWhile isWs).length
    if w = 0 then none
    else
      let rest2 := rest.drop w
      let nm := rest2.takeWhile isWordChar
      if nm.isEmpty then none
      else
        let rest3 := rest2.drop nm.length
        let w2 := (rest3.takeWhile isWs).length
        match rest3.drop w2 with
        | '(' :: _ => some (nm, 8 + w + nm.length + w2 + 1)
        | _ => none
  else none

/-- Scanner behind `extract_functions`: successive non-overlapping leftmost
matches of `\bfunction\s+([a-zA-Z0-9_]+)\s*\(`, each search resuming at the
end of the previous match (whose last character is `(`, a non-word character,
so the next `\b` test uses `(` as the previous character).  Fuel is the text
length; every step consumes at least one character. -/
def extractAux : Nat → List Char → Option Char → List (List Char)
  | 0, _, _ => []
  | _, [], _ => []
  | fuel + 1, c :: rest, prev =>
    if boundaryOk prev then
      match matchAnyDeclLen (c :: rest) with
      | some (nm, len) => nm :: extractAux fuel ((c :: rest).drop len) (some '(')
      | none => extractAux fuel rest (some c)
    else extractAux fuel rest (some c)

/-- Rust `extract_functions` (lines 80-89): the ordered sequence of names
captured by `\bfunction\s+([a-zA-Z0-9_]+)\s*\(` over the file text. -/
def extract_functions (content : List Char) : List (List Char) :=
  extractAux content.length content none

/-- First `while` loop of `remove_unused_functions` (lines 141-153): scan
forward from absolute index `i` (the suffix `s` is the text from `i` on) for
the first `{` or `;`; returns its index and whether it was a semicolon, or
`none` when the scan falls off the end of the text. -/
def scanStop : List Char → Nat → Option (Nat × Bool)
  | [], _ => none
  | c :: rest, i =>
    if c = '{' then some (i, false)
    else if c = ';' then some (i, true)
    else scanStop rest (i + 1)

/-- Bracket-counting loop of `remove_unused_functions` (lines 163-170): `s` is
the text from absolute index `i` on; returns the final `bracket_count` and the
final position. -/
def braceLoop : List Char → Nat → Nat → Nat × Nat
  | [], cnt, i => (cnt, i)
  | c :: rest, cnt, i =>
    if cnt = 0 then (cnt, i)
    else
      braceLoop rest
        (if c = '{' then cnt + 1 else if c = '}' then cnt - 1 else cnt) (i + 1)

/-- Span-end computation of `remove_unused_functions` (lines 141-177): find
the first `{` or `;` after the declaration match; a semicolon ends the span
just after itself, an opening brace starts bracket counting from 1 and the
span ends at the position reached when the count returns to 0.  `none` models
both the scan falling off the end and the `continue` on an unterminated
body. -/
def computeEndPos (content : List Char) (matEnd : Nat) : Option Nat :=
  match scanStop (content.drop matEnd) matEnd with
  | none => none
  | some (p, true) => some (p + 1)
  | some (p, false) =>
    let r := braceLoop (content.drop (p + 1)) 1 (p + 1)
    if r.1 = 0 then some r.2 else none

/-- Rust `str::rfind` of a literal pattern: index of the rightmost occurrence
of `pat` in `s`, scanning the whole of `s`. -/
def rfindSub (s pat : List Char) : Option Nat :=
  ((List.range (s.length + 1)).filter
    (fun i => pat.isPrefixOf (s.drop i))).getLast?

/-- Rust `str::trim` on ASCII text: strip leading and trailing whitespace. -/
def trimChars (s : List Char) : List Char :=
  ((s.dropWhile isWs).reverse.dropWhile isWs).reverse

/-- NatSpec-absorption step of `remove_unused_functions` (lines 179-186):
search `content[..startPos]` backwards for the nearest `/**`; if the text from
there to the declaration start, after trimming, starts with `/**` and ends
with `*/`, the span start moves back to the marker. -/
def natspecStartOf (content : List Char) (startPos : Nat) : Nat :=
  match rfindSub (content.take startPos) (cs "/**") with
  | none => startPos
  | some m =>
    let between := trimChars ((content.take startPos).drop m)
    if (cs "/**").isPrefixOf between && (cs "*/").isSuffixOf between then m
    else startPos

/-- Line-start computation of `remove_unused_functions` (lines 188-191): one
past the rightmost newline before `natspecStart`, or 0. -/
def lineStartOf (content : List Char) (natspecStart : Nat) : Nat :=
  match rfindSub (content.take natspecStart) ['\n'] with
  | some q => q + 1
  | none => 0

/-- Next-line-start computation of `remove_unused_functions` (lines 193-197):
one past the first newline at or after `endPos`, or the text length. -/
def nextLineStartOf (content : List Char) (endPos : Nat) : Nat :=
  match (content.drop endPos).findIdx? (fun c => c = '\n') with
  | some off => endPos + off + 1
  | none => content.length

/-- One iteration of the `for func_name in unused_functions` loop of
`remove_unused_functions` (lines 131-208): locate the declaration, resolve
the span end, absorb a preceding NatSpec block, align to whole lines, and
splice the span out.  Returns the new text and whether a removal happened
(the source prints `Removed function: {name}` exactly on that path). -/
def removeOneFunction (content : List Char) (name : List Char) : List Char × Bool :=
  match findDecl name content with
  | none => (content, false)
  | some (startPos, matEnd) =>
    match computeEndPos content matEnd with
    | none => (content, false)
    | some endPos =>
      let natspecStart := natspecStartOf content startPos
      let lineStart := lineStartOf content natspecStart
      let nextLineStart := nextLineStartOf content endPos
      let newContent :=
        content.take lineStart ++
          (if nextLineStart < content.length then content.drop nextLineStart
           else [])
      (newContent, true)

/-- Rust `remove_unused_functions` (lines 128-215) on an in-memory buffer:
fold the per-name removal over the list of names; the second component
collects, in order, the names for which a `Removed function` notice was
printed (the only per-function output of the deletion pass). -/
def remove_unused_functions (content : List Char) (names : List (List Char)) :
    List Char × List (List Char) :=
  names.foldl
    (fun st n =>
      let r := removeOneFunction st.1 n
      (r.1, if r.2 then st.2 ++ [n] else st.2))
    (content, [])

/-- Association-list model of `HashMap<String, usize>`: lookup. -/
def alGet : List (List Char × Nat) → List Char → Option Nat
  | [], _ => none
  | kv :: rest, k => if kv.1 = k then some kv.2 else alGet rest k

/-- Association-list model of `HashMap::insert`: replace or append. -/
def alInsert : List (List Char × Nat) → List Char → Nat → List (List Char × Nat)
  | [], k, v => [(k, v)]
  | kv :: rest, k, v =>
    if kv.1 = k then (k, v) :: rest else kv :: alInsert rest k v

/-- Rust `*map.entry(k).or_default() += v`. -/
def alAdd (m : List (List Char × Nat)) (k : List Char) (v : Nat) :
    List (List Char × Nat) :=
  match alGet m k with
  | some w => alInsert m k (w + v)
  | none => alInsert m k v

/-- Initial `function_counts` map of `count_function_occurrences` (lines
95-96): every queried name bound to 0 (duplicate names collapse, as in a
`HashMap`). -/
def initCounts (names : List (List Char)) : List (List Char × Nat) :=
  names.foldl (fun m n => alInsert m n 0) []

/-- Per-file `local_counts` map (lines 104-107): every queried name bound to
its `matches(..).count()` in this file's text. -/
def localCounts (names : List (List Char)) (content : List Char) :
    List (List Char × Nat) :=
  names.foldl (fun m n => alInsert m n (countMatches n content)) []

/-- Merge step of `count_function_occurrences` (lines 112-116): add every
entry of a per-file map into the totals.  `HashMap` iteration order is
unspecified; the totals are order-independent, and the model iterates entries
in their insertion order. -/
def mergeCounts (m fileMap : List (List Char × Nat)) : List (List Char × Nat) :=
  fileMap.foldl (fun acc kv => alAdd acc kv.1 kv.2) m

/-- Rust `count_function_occurrences` (lines 91-119).  The root directory is
modelled by the list of the `.sol` file contents found under it; unreadable
files contribute their `unwrap_or_default()` empty text, so they are modelled
as empty entries or omitted. -/
def count_function_occurrences (files : List (List Char))
    (names : List (List Char)) : List (List Char × Nat) :=
  (files.map (localCounts names)).foldl mergeCounts (initCounts names)

/-- Derivative-style syntax of the regular expressions modelled for the
ignore patterns (the `regex` crate interface, restricted to the constructs the
tool exercises: literals, `.`, anchors, grouping, alternation and the
quantifiers; character classes and counted repetitions are treated as literal
characters). -/
inductive RE where
  | bot
  | eps
  | chr (c : Char)
  | any
  | alt (a b : RE)
  | seq (a b : RE)
  | star (a : RE)
deriving DecidableEq

/-- Whether a regular expression accepts the empty word. -/
def RE.nullable : RE → Bool
  | .bot => false
  | .eps => true
  | .chr _ => false
  | .any => false
  | .alt a b => a.nullable || b.nullable
  | .seq a b => a.nullable && b.nullable
  | .star _ => true

/-- Brzozowski derivative of a regular expression by one character. -/
def RE.deriv : RE → Char → RE
  | .bot, _ => .bot
  | .eps, _ => .bot
  | .chr c, d => if c = d then .eps else .bot
  | .any, _ => .eps
  | .alt a b, d => .alt (a.deriv d) (b.deriv d)
  | .seq a b, d =>
    if a.nullable then .alt (.seq (a.deriv d) b) (b.deriv d)
    else .seq (a.deriv d) b
  | .star a, d => .seq (a.deriv d) (.star a)

/-- Whole-word acceptance of a regular expression. -/
def reFull (r : RE) (s : List Char) : Bool :=
  (s.foldl RE.deriv r).nullable

/-- Postfix quantifiers `*`, `+`, `?` applied to a parsed atom. -/
def parseQuants : RE → List Char → RE × List Char
  | r, '*' :: rest => parseQuants (RE.star r) rest
  | r, '+' :: rest => parseQuants (RE.seq r (RE.star r)) rest
  | r, '?' :: rest => parseQuants (RE.alt r RE.eps) rest
  | r, s => (r, s)

mutual

/-- Alternation level of the pattern grammar. -/
def parseAlt : Nat → List Char → Option (RE × List Char)
  | 0, _ => none
  | fuel + 1, s =>
    match parseSeq fuel s with
    | none => none
    | some (r, rest) =>
      match rest with
      | '|' :: rest2 =>
        match parseAlt fuel rest2 with
        | some (r2, rest3) => some (RE.alt r r2, rest3)
        | none => none
      | _ => some (r, rest)

/-- Concatenation level of the pattern grammar. -/
def parseSeq : Nat → List Char → Option (RE × List Char)
  | 0, _ => none
  | fuel + 1, s =>
    match s with
    | [] => some (RE.eps, [])
    | ')' :: _ => some (RE.eps, s)
    | '|' :: _ => some (RE.eps, s)
    | _ =>
      match parseAtom fuel s with
      | none => none
      | some (a, rest) =>
        let q := parseQuants a rest
        match parseSeq fuel q.2 with
        | none => none
        | some (r, rest3) => some (RE.seq q.1 r, rest3)

/-- Atom level of the pattern grammar: rejects unbalanced parentheses,
dangling quantifiers and a trailing backslash, the ill-formed inputs
`Regex::new` refuses; an anchor in atom position matches nothing. -/
def parseAtom : Nat → List Char → Option (RE × List Char)
  | 0, _ => none
  | fuel + 1, s =>
    match s with
    | [] => none
    | '(' :: rest =>
      match parseAlt fuel rest with
      | some (r, ')' :: rest2) => some (r, rest2)
      | _ => none
    | '*' :: _ => none
    | '+' :: _ => none
    | '?' :: _ => none
    | ')' :: _ => none
    | '|' :: _ => none
    | '\\' :: c :: rest => some (RE.chr c, rest)
    | ['\\'] => none
    | '.' :: rest => some (RE.any, rest)
    | '^' :: rest => some (RE.bot, rest)
    | '$' :: rest => some (RE.bot, rest)
    | c :: rest => some (RE.chr c, rest)

end

/-- Search wrapper giving `Regex::is_match` semantics to a parsed pattern: an
unanchored end admits any suffix, an unanchored start any prefix. -/
def mkSearch (aStart : Bool) (r : RE) (aEnd : Bool) : RE :=
  RE.seq (if aStart then RE.eps else RE.star RE.any)
    (RE.seq r (if aEnd then RE.eps else RE.star RE.any))

/-- Model of `Regex::new` on the supported pattern subset: strip a leading
`^` and an unescaped trailing `$` as anchors, parse the remainder, and require
the parse to consume the whole pattern. -/
def compileRegex (p : List Char) : Option RE :=
  let aStart := p.head? = some '^'
  let p1 := if aStart then p.drop 1 else p
  let aEnd := p1.getLast? = some '$' &&
    !(2 ≤ p1.length && p1.getD (p1.length - 2) ' ' = '\\')
  let p2 := if aEnd then p1.dropLast else p1
  match parseAlt (4 * p2.length + 8) p2 with
  | some (r, []) => some (mkSearch aStart r aEnd)
  | _ => none

/-- Rust `should_ignore_function` (lines 121-126): compile each pattern,
silently dropping the ones `Regex::new` rejects, and test whether any
remaining one matches the name. -/
def should_ignore_function (funcName : List Char)
    (ignorePatterns : List (List Char)) : Bool :=
  (ignorePatterns.filterMap compileRegex).any (fun r => reFull r funcName)

/-- Removal-list filter of `process_single_file` (lines 227-234): a function
is marked unused when its count (0 when absent from the map) is at most 1 and
no ignore pattern matches it. -/
def unusedFunctions (functions : List (List Char))
    (counts : List (List Char × Nat)) (ignorePatterns : List (List Char)) :
    List (List Char) :=
  functions.filter
    (fun f =>
      decide ((alGet counts f).getD 0 ≤ 1) &&
        !should_ignore_function f ignorePatterns)

/-- Rust `process_single_file` (lines 217-262) against a root modelled by the
list `fs` of the `.sol` file texts under it, the analyzed file being entry
`i`: extract the declared names, count their occurrences over the whole root,
filter the unused ones, and, when deletion is on and some function is unused,
write the deletion pass's result back.  Returns the file's unused count and
the updated root. -/
def process_single_file (delete : Bool) (ignorePatterns : List (List Char))
    (fs : List (List Char)) (i : Nat) : Nat × List (List Char) :=
  let content := fs.getD i []
  let functions := extract_functions content
  let counts := count_function_occurrences fs functions
  let unused := unusedFunctions functions counts ignorePatterns
  let fs' :=
    if !unused.isEmpty && delete then
      fs.set i (remove_unused_functions content unused).1
    else fs
  (unused.length, fs')

/-- Directory branch of `run` (lines 41-48): process every discovered file and
sum the unused totals.  `rayon`'s `par_iter` runs the per-file jobs in
parallel with an unspecified schedule; the model executes them in discovery
order, one admissible schedule, which is also the order the summed totals are
combined in. -/
def runVacuum (delete : Bool) (ignorePatterns : List (List Char))
    (fs : List (List Char)) : Nat × List (List Char) :=
  (List.range fs.length).foldl
    (fun acc i =>
      let r := process_single_file delete ignorePatterns acc.2 i
      (acc.1 + r.1, r.2))
    (0, fs)

/-! ## Claim C1: the usage classifier -/

/-- C1: for every declared function name, the classifier of
`process_single_file` puts a name on the removal list exactly when it is
declared, its occurrence count is at most 1, and it matches no ignore
pattern — equivalently, it keeps the name exactly when the count exceeds 1 or
some ignore pattern matches; a name matching an ignore pattern is never on the
removal list, whatever its count, so ignored names never contribute to the
unused total (the removal list's length). -/
theorem c1_usage_classifier (functions : List (List Char))
    (counts : List (List Char × Nat)) (ignore : List (List Char))
    (f : List Char) :
    (f ∈ unusedFunctions functions counts ignore ↔
      f ∈ functions ∧
        ¬(1 < (alGet counts f).getD 0 ∨
            should_ignore_function f ignore = true)) ∧
    (should_ignore_function f ignore = true →
      f ∉ unusedFunctions functions counts ignore) := by
  constructor
  · simp only [unusedFunctions, List.mem_filter, Bool.and_eq_true,
      decide_eq_true_eq, Bool.not_eq_true', not_or, not_lt]
    constructor
    · rintro ⟨hm, hle, hig⟩
      exact ⟨hm, hle, by simp [hig]⟩
    · rintro ⟨hm, hle, hig⟩
      exact ⟨hm, hle, by simp_all⟩
  · intro hig hm
    simp only [unusedFunctions, List.mem_filter, Bool.and_eq_true,
      decide_eq_true_eq, Bool.not_eq_true'] at hm
    simp [hig] at hm

/-- C1 witness: a name matching the default ignore pattern `^test` with
occurrence count 0 is not on the removal list. -/
theorem c1_usage_classifier_witness :
    (cs "testFoo") ∉
      unusedFunctions [cs "testFoo"] [(cs "testFoo", 0)] [cs "^test"] :=
  (c1_usage_classifier [cs "testFoo"] [(cs "testFoo", 0)] [cs "^test"]
    (cs "testFoo")).2 (by decide)

/-! ## Claim C10: ill-formed ignore patterns -/

/-- C10: an ignore pattern that `Regex::new` rejects is silently dropped by
`should_ignore_function` — classification proceeds exactly as if the pattern
were absent, so it matches no name and nothing errors or aborts. -/
theorem c10_invalid_pattern_dropped (p : List Char) (ps : List (List Char))
    (n : List Char) (h : compileRegex p = none) :
    should_ignore_function n (p :: ps) = should_ignore_function n ps := by
  simp [should_ignore_function, List.filterMap_cons, h]

/-- C10 witness: the ill-formed pattern `(` is dropped and classification
still applies the remaining valid pattern `^test`. -/
theorem c10_invalid_pattern_dropped_witness :
    compileRegex (cs "(") = none ∧
      should_ignore_function (cs "testFoo") [cs "(", cs "^test"] =
        should_ignore_function (cs "testFoo") [cs "^test"] ∧
      should_ignore_function (cs "testFoo") [cs "(", cs "^test"] = true :=
  ⟨by decide,
    c10_invalid_pattern_dropped (cs "(") [cs "^test"] (cs "testFoo")
      (by decide),
    by decide⟩

/-! ## Map lemmas for the occurrence counter -/

/-- Lookup after a replacing insert. -/
theorem alGet_alInsert (m : List (List Char × Nat)) (k : List Char) (v : Nat)
    (x : List Char) :
    alGet (alInsert m k v) x = if k = x then some v else alGet m x := by
  induction m with
  | nil =>
    by_cases h : k = x <;> simp [alInsert, alGet, h]
  | cons kv rest ih =>
    by_cases hk : kv.1 = k
    · by_cases hx : k = x <;> simp [alInsert, alGet, hk, hx]
    · have hstep : alInsert (kv :: rest) k v = kv :: alInsert rest k v := by
        simp [alInsert, hk]
      rw [hstep]
      by_cases hx : kv.1 = x
      · have hkx : ¬k = x := fun h => hk (h ▸ hx)
        simp [alGet, hx, hkx]
      · simp [alGet, hx, ih]

/-- Lookup after `*map.entry(k).or_default() += v`. -/
theorem alGet_alAdd (m : List (List Char × Nat)) (k : List Char) (v : Nat)
    (x : List Char) :
    alGet (alAdd m k v) x =
      if k = x then some ((alGet m k).getD 0 + v) else alGet m x := by
  unfold alAdd
  cases h : alGet m k <;> simp [alGet_alInsert, h]

/-- Lookup in a map built by inserting a value `f n` for every listed name. -/
theorem alGet_foldl_alInsert (f : List Char → Nat) (names : List (List Char))
    (m0 : List (List Char × Nat)) (x : List Char) :
    alGet (names.foldl (fun m n => alInsert m n (f n)) m0) x =
      if x ∈ names then some (f x) else alGet m0 x := by
  induction names generalizing m0 with
  | nil => simp
  | cons n rest ih =>
    simp only [List.foldl_cons, ih, alGet_alInsert, List.mem_cons]
    by_cases hr : x ∈ rest
    · simp [hr]
    · by_cases hn : n = x
      · simp [hr, hn]
      · simp [hr, hn, Ne.symm hn]

/-- Lookup in the per-file `local_counts` map. -/
theorem alGet_localCounts (names : List (List Char)) (content : List Char)
    (x : List Char) :
    alGet (localCounts names content) x =
      if x ∈ names then some (countMatches x content) else none := by
  unfold localCounts
  rw [alGet_foldl_alInsert]
  simp [alGet]

/-- Lookup in the initial all-zero `function_counts` map. -/
theorem alGet_initCounts (names : List (List Char)) (x : List Char) :
    alGet (initCounts names) x = if x ∈ names then some 0 else none := by
  unfold initCounts
  rw [alGet_foldl_alInsert (fun _ => 0)]
  simp [alGet]

/-- Absent keys look up to `none`. -/
theorem alGet_eq_none_of_not_mem (m : List (List Char × Nat)) (x : List Char)
    (h : x ∉ m.map Prod.fst) : alGet m x = none := by
  induction m with
  | nil => simp [alGet]
  | cons kv rest ih =>
    simp only [List.map_cons, List.mem_cons, not_or] at h
    have h1 : ¬kv.1 = x := fun hh => h.1 hh.symm
    simp [alGet, h1, ih h.2]

/-- Keys after a replacing insert. -/
theorem keys_alInsert (m : List (List Char × Nat)) (k : List Char) (v : Nat) :
    (alInsert m k v).map Prod.fst =
      if k ∈ m.map Prod.fst then m.map Prod.fst else m.map Prod.fst ++ [k] := by
  induction m with
  | nil => simp [alInsert]
  | cons kv rest ih =>
    by_cases hk : kv.1 = k
    · simp [alInsert, hk]
    · have hne : ¬k = kv.1 := fun h => hk h.symm
      have hstep : alInsert (kv :: rest) k v = kv :: alInsert rest k v := by
        simp [alInsert, hk]
      rw [hstep]
      simp only [List.map_cons, ih, List.mem_cons, hne, false_or]
      by_cases hm : k ∈ rest.map Prod.fst
      · simp [hm]
      · simp [hm]

/-- Maps built by repeated inserts have distinct keys. -/
theorem nodup_keys_foldl_alInsert (f : List Char → Nat)
    (names : List (List Char)) (m0 : List (List Char × Nat))
    (h0 : (m0.map Prod.fst).Nodup) :
    (((names.foldl (fun m n => alInsert m n (f n)) m0)).map Prod.fst).Nodup := by
  induction names generalizing m0 with
  | nil => simpa
  | cons n rest ih =>
    simp only [List.foldl_cons]
    refine ih _ ?_
    rw [keys_alInsert]
    by_cases hm : n ∈ m0.map Prod.fst
    · simpa [hm]
    · simp [hm, List.nodup_append, h0]

/-- Merging a per-file map with distinct keys adds, per name, exactly its
entry of that map. -/
theorem alGet_mergeCounts (fileMap m : List (List Char × Nat)) (x : List Char)
    (w : Nat) (hnd : (fileMap.map Prod.fst).Nodup) (hm : alGet m x = some w) :
    alGet (mergeCounts m fileMap) x = some (w + (alGet fileMap x).getD 0) := by
  induction fileMap generalizing m w with
  | nil => simpa [mergeCounts, alGet]
  | cons kv rest ih =>
    simp only [List.map_cons, List.nodup_cons] at hnd
    have hstep : mergeCounts m (kv :: rest) = mergeCounts (alAdd m kv.1 kv.2) rest := by
      simp [mergeCounts]
    rw [hstep]
    by_cases hx : kv.1 = x
    · have hget : alGet (alAdd m kv.1 kv.2) x = some (w + kv.2) := by
        rw [alGet_alAdd, if_pos hx, hx, hm]
        simp
      have hrest : alGet rest x = none :=
        alGet_eq_none_of_not_mem rest x (by rw [← hx]; exact hnd.1)
      rw [ih _ _ hnd.2 hget, hrest]
      simp [alGet, hx]
    · have hget : alGet (alAdd m kv.1 kv.2) x = some w := by
        rw [alGet_alAdd, if_neg hx]
        exact hm
      rw [ih _ _ hnd.2 hget]
      simp [alGet, hx]

/-- Per queried name, `count_function_occurrences` totals the per-file
`matches(..).count()` values over all files under the root. -/
theorem alGet_count_occurrences (files : List (List Char))
    (names : List (List Char)) (x : List Char) (hx : x ∈ names) :
    alGet (count_function_occurrences files names) x =
      some ((files.map (fun c => countMatches x c)).sum) := by
  unfold count_function_occurrences
  suffices h : ∀ (fl : List (List Char)) (m : List (List Char × Nat)) (w : Nat),
      alGet m x = some w →
      alGet ((fl.map (localCounts names)).foldl mergeCounts m) x =
        some (w + (fl.map (fun c => countMatches x c)).sum) by
    have := h files (initCounts names) 0 (by simp [alGet_initCounts, hx])
    simpa using this
  intro fl
  induction fl with
  | nil => simp_all
  | cons c rest ih =>
    intro m w hm
    simp only [List.map_cons, List.foldl_cons]
    have hnd : ((localCounts names c).map Prod.fst).Nodup :=
      nodup_keys_foldl_alInsert _ names [] (by simp)
    have hmerge := alGet_mergeCounts (localCounts names c) m x w hnd hm
    rw [alGet_localCounts] at hmerge
    simp only [hx, if_pos] at hmerge
    rw [ih _ _ hmerge]
    simp [Nat.add_assoc]

/-! ## Substring occurrences -/

/-- Occurrence of `pat` as a literal substring of `s` at some position. -/
def occursIn (s pat : List Char) : Prop :=
  ∃ i, pat.isPrefixOf (s.drop i) = true

/-- A list is a Boolean prefix of itself followed by anything. -/
theorem isPrefixOf_append_self (l t : List Char) :
    l.isPrefixOf (l ++ t) = true := by
  induction l with
  | nil => simp [List.isPrefixOf]
  | cons c r ih => simp [List.isPrefixOf, ih]

/-- Occurrences survive prepending a character. -/
theorem occursIn_cons (c : Char) (s pat : List Char) (h : occursIn s pat) :
    occursIn (c :: s) pat := by
  obtain ⟨i, hi⟩ := h
  exact ⟨i + 1, by simpa using hi⟩

/-- Occurrences in a suffix are occurrences in the whole list. -/
theorem occursIn_of_drop (s pat : List Char) (k : Nat)
    (h : occursIn (s.drop k) pat) : occursIn s pat := by
  obtain ⟨i, hi⟩ := h
  rw [List.drop_drop] at hi
  exact ⟨k + i, hi⟩

/-- A Boolean prefix is an occurrence at position 0. -/
theorem occursIn_of_isPrefixOf {s pat : List Char}
    (h : pat.isPrefixOf s = true) : occursIn s pat :=
  ⟨0, by simpa using h⟩

/-- The matcher counts at least one hit whenever the pattern occurs. -/
theorem countMatchesAux_pos (pat : List Char) (hne : pat ≠ []) :
    ∀ (s : List Char) (fuel : Nat), s.length ≤ fuel → occursIn s pat →
      1 ≤ countMatchesAux pat fuel s := by
  intro s
  induction s with
  | nil =>
    intro fuel _ h
    obtain ⟨i, hi⟩ := h
    rw [List.drop_nil] at hi
    cases pat with
    | nil => exact absurd rfl hne
    | cons c r => simp [List.isPrefixOf] at hi
  | cons c rest ih =>
    intro fuel hf h
    cases fuel with
    | zero => simp at hf
    | succ f =>
      by_cases hp : pat.isPrefixOf (c :: rest) = true
      · simp [countMatchesAux, hp]
      · have h' : occursIn rest pat := by
          obtain ⟨i, hi⟩ := h
          cases i with
          | zero => rw [List.drop_zero] at hi; exact absurd hi hp
          | succ j => exact ⟨j, by simpa using hi⟩
        have hlen : rest.length ≤ f := by simpa using hf
        have := ih f hlen h'
        simpa [countMatchesAux, hp] using this

/-- Rust `matches(..).count()` is positive whenever the pattern occurs. -/
theorem countMatches_pos (pat s : List Char) (h : occursIn s pat) :
    1 ≤ countMatches pat s := by
  unfold countMatches
  by_cases hne : pat.isEmpty = true
  · simp [hne]
  · have hp : pat ≠ [] := by
      cases pat with
      | nil => simp at hne
      | cons a b => simp
    simp only [hne, Bool.false_eq_true, if_false]
    exact countMatchesAux_pos pat hp s s.length le_rfl h

/-! ## Facts about the declaration matchers -/

/-- The longest run satisfying a predicate is a Boolean prefix. -/
theorem isPrefixOf_takeWhile (p : Char → Bool) (l : List Char) :
    (l.takeWhile p).isPrefixOf l = true := by
  induction l with
  | nil => simp [List.isPrefixOf]
  | cons c r ih =>
    by_cases hc : p c
    · simp [List.takeWhile_cons, hc, List.isPrefixOf, ih]
    · simp [List.takeWhile_cons, hc, List.isPrefixOf]

/-- A successful capture yields a non-empty, all-word-character name that
occurs in the matched text. -/
theorem matchAnyDeclLen_name_facts (s nm : List Char) (len : Nat)
    (h : matchAnyDeclLen s = some (nm, len)) :
    nm ≠ [] ∧ (∀ c ∈ nm, isWordChar c = true) ∧ occursIn s nm := by
  unfold matchAnyDeclLen at h
  simp only [] at h
  split at h
  · split at h
    · simp at h
    · split at h
      · simp at h
      · split at h
        · injection h with hh
          injection hh with hnm hlen
          subst hnm
          rename_i hempty _ _ _
          refine ⟨?_, ?_, ?_⟩
          · intro hnil
            rw [hnil] at hempty
            simp at hempty
          · intro c hc
            exact List.mem_takeWhile_imp hc
          · apply occursIn_of_drop s _ 8
            apply occursIn_of_drop _ _ (((s.drop 8).takeWhile isWs).length)
            exact occursIn_of_isPrefixOf (isPrefixOf_takeWhile _ _)
        · simp at h
  · simp at h

/-- Every name the extraction scanner returns is non-empty, consists of word
characters, and occurs in the scanned text. -/
theorem extractAux_mem (fuel : Nat) :
    ∀ (s : List Char) (prev : Option Char) (n : List Char),
      n ∈ extractAux fuel s prev →
      n ≠ [] ∧ (∀ c ∈ n, isWordChar c = true) ∧ occursIn s n := by
  induction fuel with
  | zero =>
    intro s prev n hn
    simp [extractAux] at hn
  | succ f ih =>
    intro s prev n hn
    match s with
    | [] => simp [extractAux] at hn
    | c :: rest =>
      rw [extractAux] at hn
      by_cases hb : boundaryOk prev = true
      · rw [if_pos hb] at hn
        cases hm : matchAnyDeclLen (c :: rest) with
        | none =>
          rw [hm] at hn
          have := ih rest (some c) n hn
          exact ⟨this.1, this.2.1, occursIn_cons _ _ _ this.2.2⟩
        | some pr =>
          rw [hm] at hn
          rcases List.mem_cons.mp hn with h1 | h2
          · subst h1
            exact matchAnyDeclLen_name_facts (c :: rest) pr.1 pr.2 (by rw [hm])
          · have := ih _ _ n h2
            exact ⟨this.1, this.2.1, occursIn_of_drop _ _ _ this.2.2⟩
      · rw [if_neg hb] at hn
        have := ih rest (some c) n hn
        exact ⟨this.1, this.2.1, occursIn_cons _ _ _ this.2.2⟩

/-- Every name `extract_functions` returns is non-empty, consists of word
characters, and occurs in the file text. -/
theorem extract_functions_mem (content n : List Char)
    (h : n ∈ extract_functions content) :
    n ≠ [] ∧ (∀ c ∈ n, isWordChar c = true) ∧ occursIn content n :=
  extractAux_mem content.length content none n h

/-! ## Claim C3: the occurrence counter -/

/-- C3: for every queried name, the count reported by
`count_function_occurrences` is exactly the sum, over all `.sol` files under
the root, of the non-overlapping literal substring matches of the name in the
file's text — in particular a name whose matches total 1 (one declaration, no
other reference) is reported with count exactly 1. -/
theorem c3_occurrence_count_is_sum (files : List (List Char))
    (names : List (List Char)) (n : List Char) (hn : n ∈ names) :
    alGet (count_function_occurrences files names) n =
      some ((files.map (fun c => countMatches n c)).sum) :=
  alGet_count_occurrences files names n hn

/-- C3 witness: over a root with one declaring file and one unrelated file, a
name with a single declaration and no other reference is counted exactly
once. -/
theorem c3_occurrence_count_is_sum_witness :
    alGet
        (count_function_occurrences
          [cs "function foo() \x7b\x7d\n", cs "contract X \x7b\x7d\n"]
          [cs "foo"])
        (cs "foo") =
      some 1 :=
  (c3_occurrence_count_is_sum
      [cs "function foo() \x7b\x7d\n", cs "contract X \x7b\x7d\n"]
      [cs "foo"] (cs "foo") (by decide)).trans (by decide)

/-! ## Claim C9: declared names count at least one -/

/-- C9: a function name extracted from a readable file that lies under the
counting root always gets an occurrence count of at least 1, because the
declaration itself contains the name as a substring; by contraposition a
reported count of 0 requires the declaring file to be missing from the
counted root (outside it, or unreadable and hence contributing empty
text). -/
theorem c9_declared_name_counted (fs names : List (List Char))
    (content n : List Char) (hc : content ∈ fs)
    (hn : n ∈ extract_functions content) (hq : n ∈ names) :
    ∃ k, alGet (count_function_occurrences fs names) n = some k ∧ 1 ≤ k := by
  refine ⟨_, alGet_count_occurrences fs names n hq, ?_⟩
  have h1 : 1 ≤ countMatches n content :=
    countMatches_pos n content (extract_functions_mem content n hn).2.2
  have hmem : countMatches n content ∈ fs.map (fun c => countMatches n c) :=
    List.mem_map_of_mem _ hc
  exact le_trans h1 (List.single_le_sum (fun x _ => Nat.zero_le x) _ hmem)

/-- C9 witness: a file declaring `foo` inside the counted root yields a
positive count for `foo`. -/
theorem c9_declared_name_counted_witness :
    ∃ k,
      alGet
          (count_function_occurrences [cs "function foo() \x7b\x7d\n"]
            [cs "foo"])
          (cs "foo") =
        some k ∧ 1 ≤ k :=
  c9_declared_name_counted [cs "function foo() \x7b\x7d\n"] [cs "foo"]
    (cs "function foo() \x7b\x7d\n") (cs "foo") (by decide) (by decide)
    (by decide)

/-! ## Claim C2: span-end resolution -/

/-- Declarative brace depth for an opening brace at position `b`: 1 plus the
number of `{` minus the number of `}` among positions `b+1 .. k` of the
text. -/
def braceDepth (content : List Char) (b k : Nat) : Int :=
  1 + (((content.drop (b + 1)).take (k - b)).count '{' : Int) -
    (((content.drop (b + 1)).take (k - b)).count '}' : Int)

/-- Indexing with a default commutes with dropping a prefix. -/
theorem getD_drop_eq (l : List Char) (m k : Nat) (d : Char) :
    (l.drop m).getD k d = l.getD (m + k) d := by
  simp [List.getD, List.getElem?_drop]

/-- The forward scan stops at the first `{` or `;`, reporting which. -/
theorem scanStop_spec :
    ∀ (s : List Char) (i p : Nat) (b : Bool), scanStop s i = some (p, b) →
      i ≤ p ∧ p - i < s.length ∧
        s.getD (p - i) ' ' = (if b then ';' else '{') ∧
        ∀ q, q < p - i → s.getD q ' ' ≠ '{' ∧ s.getD q ' ' ≠ ';' := by
  intro s
  induction s with
  | nil => intro i p b h; simp [scanStop] at h
  | cons c rest ih =>
    intro i p b h
    rw [scanStop] at h
    by_cases hc1 : c = '{'
    · rw [if_pos hc1] at h
      injection h with h'
      injection h' with h1 h2
      subst h1; subst h2; subst hc1
      refine ⟨le_rfl, by simp, by simp, ?_⟩
      intro q hq
      omega
    · rw [if_neg hc1] at h
      by_cases hc2 : c = ';'
      · rw [if_pos hc2] at h
        injection h with h'
        injection h' with h1 h2
        subst h1; subst h2; subst hc2
        refine ⟨le_rfl, by simp, by simp, ?_⟩
        intro q hq
        omega
      · rw [if_neg hc2] at h
        obtain ⟨hip, hlt, hat, hbefore⟩ := ih (i + 1) p b h
        have hpi : 1 ≤ p - i := by omega
        refine ⟨by omega, by simp; omega, ?_, ?_⟩
        · have : p - i = (p - (i + 1)) + 1 := by omega
          rw [this]
          simpa using hat
        · intro q hq
          cases q with
          | zero => simpa using ⟨hc1, hc2⟩
          | succ q' =>
            have : q' < p - (i + 1) := by omega
            simpa using hbefore q' this

/-- A bracket count of zero stops the loop immediately. -/
theorem braceLoop_zero (s : List Char) (i : Nat) : braceLoop s 0 i = (0, i) := by
  cases s <;> simp [braceLoop]

/-- The bracket-counting loop ends exactly where the running depth first
returns to zero. -/
theorem braceLoop_spec :
    ∀ (s : List Char) (cnt i e : Nat), 0 < cnt → braceLoop s cnt i = (0, e) →
      i ≤ e ∧ e - i ≤ s.length ∧
        (cnt : Int) + ((s.take (e - i)).count '{' : Int) -
            ((s.take (e - i)).count '}' : Int) = 0 ∧
        ∀ k, k < e - i →
          0 < (cnt : Int) + ((s.take k).count '{' : Int) -
              ((s.take k).count '}' : Int) := by
  intro s
  induction s with
  | nil =>
    intro cnt i e hcnt h
    rw [braceLoop] at h
    injection h with h1 h2
    omega
  | cons c rest ih =>
    intro cnt i e hcnt h
    rw [braceLoop, if_neg (by omega)] at h
    have hbase : ∀ k, k = 0 →
        0 < (cnt : Int) + (((c :: rest).take k).count '{' : Int) -
            (((c :: rest).take k).count '}' : Int) := by
      intro k hk
      subst hk
      simp only [List.take_zero, List.count_nil]
      push_cast
      omega
    by_cases hc1 : c = '{'
    · rw [if_pos hc1] at h
      obtain ⟨hie, hlen, hdep, hpos⟩ := ih (cnt + 1) (i + 1) e (by omega) h
      have hei : 1 ≤ e - i := by omega
      have htk : ∀ m, (c :: rest).take (m + 1) = c :: rest.take m := by
        intro m
        rw [List.take_succ_cons]
      have hcount : ∀ m,
          (((c :: rest).take (m + 1)).count '{' : Int) = (rest.take m).count '{' + 1 ∧
          (((c :: rest).take (m + 1)).count '}' : Int) = (rest.take m).count '}' := by
        intro m
        rw [htk m]
        subst hc1
        constructor
        · rw [List.count_cons_self]
          push_cast
          ring
        · rw [List.count_cons_of_ne (by decide)]
      refine ⟨by omega, by simp only [List.length_cons]; omega, ?_, ?_⟩
      · have he : e - i = (e - (i + 1)) + 1 := by omega
        rw [he, (hcount (e - (i + 1))).1, (hcount (e - (i + 1))).2]
        push_cast at hdep
        omega
      · intro k hk
        cases k with
        | zero => exact hbase 0 rfl
        | succ k' =>
          have hk' : k' < e - (i + 1) := by omega
          have hp := hpos k' hk'
          rw [(hcount k').1, (hcount k').2]
          push_cast at hp
          omega
    · rw [if_neg hc1] at h
      by_cases hc2 : c = '}'
      · rw [if_pos hc2] at h
        have hcount : ∀ m,
            (((c :: rest).take (m + 1)).count '{' : Int) = (rest.take m).count '{' ∧
            (((c :: rest).take (m + 1)).count '}' : Int) = (rest.take m).count '}' + 1 := by
          intro m
          rw [List.take_succ_cons]
          subst hc2
          constructor
          · rw [List.count_cons_of_ne (by decide)]
          · rw [List.count_cons_self]
            push_cast
            ring
        by_cases hone : cnt = 1
        · subst hone
          simp only [Nat.sub_self] at h
          rw [braceLoop_zero] at h
          injection h with h1 h2
          subst h2
          refine ⟨by omega, by simp only [List.length_cons]; omega, ?_, ?_⟩
          · have he : i + 1 - i = 0 + 1 := by omega
            rw [he, (hcount 0).1, (hcount 0).2]
            simp
          · intro k hk
            have hk0 : k = 0 := by omega
            exact hbase k hk0
        · obtain ⟨hie, hlen, hdep, hpos⟩ := ih (cnt - 1) (i + 1) e (by omega) h
          refine ⟨by omega, by simp only [List.length_cons]; omega, ?_, ?_⟩
          · have he : e - i = (e - (i + 1)) + 1 := by omega
            rw [he, (hcount (e - (i + 1))).1, (hcount (e - (i + 1))).2]
            omega
          · intro k hk
            cases k with
            | zero => exact hbase 0 rfl
            | succ k' =>
              have hk' : k' < e - (i + 1) := by omega
              have hp := hpos k' hk'
              rw [(hcount k').1, (hcount k').2]
              push_cast at hp
              omega
      · rw [if_neg hc2] at h
        obtain ⟨hie, hlen, hdep, hpos⟩ := ih cnt (i + 1) e hcnt h
        have hcount : ∀ m,
            (((c :: rest).take (m + 1)).count '{' : Int) = (rest.take m).count '{' ∧
            (((c :: rest).take (m + 1)).count '}' : Int) = (rest.take m).count '}' := by
          intro m
          rw [List.take_succ_cons]
          constructor
          · rw [List.count_cons_of_ne (fun hh => hc1 hh.symm)]
          · rw [List.count_cons_of_ne (fun hh => hc2 hh.symm)]
        refine ⟨by omega, by simp only [List.length_cons]; omega, ?_, ?_⟩
        · have he : e - i = (e - (i + 1)) + 1 := by omega
          rw [he, (hcount (e - (i + 1))).1, (hcount (e - (i + 1))).2]
          omega
        · intro k hk
          cases k with
          | zero => exact hbase 0 rfl
          | succ k' =>
            have hk' : k' < e - (i + 1) := by omega
            have hp := hpos k' hk'
            rw [(hcount k').1, (hcount k').2]
            push_cast at hp
            omega

/-- C2: when the span locator has a declaration match ending at `matEnd`, the
forward scan stops at the first `{` or `;` after it, whichever comes first;
a semicolon makes the span end immediately after itself, and an opening brace
starts a depth counter at 1 (incremented by `{`, decremented by `}`) so that
the computed span end is the position immediately after the brace that first
returns the depth to 0 — nested brace blocks keep the depth positive, so the
body is consumed as one unit rather than truncated at the first `}`. -/
theorem c2_span_end_resolution (content : List Char) (matEnd p : Nat)
    (isSemi : Bool)
    (h : scanStop (content.drop matEnd) matEnd = some (p, isSemi)) :
    (matEnd ≤ p ∧ p < content.length ∧
      content.getD p ' ' = (if isSemi then ';' else '{') ∧
      ∀ q, matEnd ≤ q → q < p →
        content.getD q ' ' ≠ '{' ∧ content.getD q ' ' ≠ ';') ∧
    (isSemi = true → computeEndPos content matEnd = some (p + 1)) ∧
    (isSemi = false → ∀ e, computeEndPos content matEnd = some e →
      p + 1 ≤ e ∧ e ≤ content.length ∧ braceDepth content p (e - 1) = 0 ∧
      ∀ j, p ≤ j → j < e - 1 → 0 < braceDepth content p j) := by
  obtain ⟨hip, hlt, hat, hbefore⟩ :=
    scanStop_spec (content.drop matEnd) matEnd p isSemi h
  rw [List.length_drop] at hlt
  have hplen : p < content.length := by omega
  refine ⟨⟨hip, hplen, ?_, ?_⟩, ?_, ?_⟩
  · rw [getD_drop_eq] at hat
    have : matEnd + (p - matEnd) = p := by omega
    rwa [this] at hat
  · intro q hq1 hq2
    have := hbefore (q - matEnd) (by omega)
    rw [getD_drop_eq] at this
    have heq : matEnd + (q - matEnd) = q := by omega
    rwa [heq] at this
  · intro hsemi
    subst hsemi
    unfold computeEndPos
    rw [h]
  · intro hbrace e he
    subst hbrace
    unfold computeEndPos at he
    rw [h] at he
    simp only [] at he
    rcases hbl : braceLoop (content.drop (p + 1)) 1 (p + 1) with ⟨cnt', e'⟩
    rw [hbl] at he
    by_cases hz : cnt' = 0
    · subst hz
      simp only [if_pos rfl] at he
      injection he with he'
      subst he'
      obtain ⟨h1, h2, h3, h4⟩ :=
        braceLoop_spec (content.drop (p + 1)) 1 (p + 1) e' (by omega) hbl
      rw [List.length_drop] at h2
      refine ⟨by omega, by omega, ?_, ?_⟩
      · unfold braceDepth
        have : e' - 1 - p = e' - (p + 1) := by omega
        rw [this]
        push_cast at h3
        omega
      · intro j hj1 hj2
        have := h4 (j - p) (by omega)
        unfold braceDepth
        push_cast at this
        omega
    · rw [if_neg hz] at he
      exact absurd he (by simp)

/-- C2 witness: on a body containing a nested brace block the resolved span
end is the position just after the outer closing brace (39, the whole text),
the depth is 0 there, and it is still positive just after the inner closing
brace at position 31. -/
theorem c2_span_end_resolution_witness :
    computeEndPos (cs "function foo() \x7b if (x) \x7b y(); \x7d z(); \x7d") 13 =
        some 39 ∧
      braceDepth (cs "function foo() \x7b if (x) \x7b y(); \x7d z(); \x7d") 15 38 = 0 ∧
      0 < braceDepth (cs "function foo() \x7b if (x) \x7b y(); \x7d z(); \x7d") 15 31 := by
  have h :=
    c2_span_end_resolution (cs "function foo() \x7b if (x) \x7b y(); \x7d z(); \x7d")
      13 15 false (by decide)
  have h2 := h.2.2 rfl 39 (by decide)
  exact ⟨by decide, h2.2.2.1, h2.2.2.2 31 (by decide) (by decide)⟩

/-! ## Claim C4: documentation-block absorption -/

/-- Membership and bound for a successful backward search. -/
theorem rfindSub_mem (s pat : List Char) (m : Nat)
    (h : rfindSub s pat = some m) :
    m ≤ s.length ∧ pat.isPrefixOf (s.drop m) = true := by
  unfold rfindSub at h
  have hx : m ∈ (List.filter (fun i => pat.isPrefixOf (s.drop i))
      (List.range (s.length + 1))).getLast? := Option.mem_def.mpr h
  obtain ⟨hne, heq⟩ := List.mem_getLast?_eq_getLast hx
  have hmem : m ∈ List.filter (fun i => pat.isPrefixOf (s.drop i))
      (List.range (s.length + 1)) := heq ▸ List.getLast_mem hne
  rw [List.mem_filter, List.mem_range] at hmem
  exact ⟨by omega, hmem.2⟩

/-- Documentation block in the sense of the spec's parenthetical, applied
after discarding the whitespace around the text: it starts with the opening
marker `/**` and ends with the closing marker `*/`. -/
def isCompleteDocBlockUpToWs (t : List Char) : Bool :=
  (cs "/**").isPrefixOf (trimChars t) && (cs "*/").isSuffixOf (trimChars t)

/-- C4 counterexample: with the text `/** d */` + newline + `function foo()`,
the declaration starts at offset 9, the nearest `/**` is at offset 0, and the
span start is extended to 0 — yet the text between the marker and the
declaration start is not itself a block ending with the closing marker (it
ends with the newline), refuting the claim as stated. -/
theorem c4_natspec_absorption_counterexample :
    findDecl (cs "foo") (cs "/** d */\nfunction foo() \x7b\x7d\n") =
        some (9, 22) ∧
      rfindSub ((cs "/** d */\nfunction foo() \x7b\x7d\n").take 9) (cs "/**") =
        some 0 ∧
      natspecStartOf (cs "/** d */\nfunction foo() \x7b\x7d\n") 9 = 0 ∧
      (cs "*/").isSuffixOf
          (((cs "/** d */\nfunction foo() \x7b\x7d\n").take 9).drop 0) =
        false :=
  ⟨by decide, by decide, by decide, by decide⟩

/-- C4 amended: the span start is extended backward to the nearest `/**`
marker exactly when the text between that marker and the declaration start
is, after discarding surrounding whitespace, a complete well-formed
documentation block (starts with `/**` and ends with `*/`); otherwise — and
when no marker precedes the declaration — the span start stays at the
declaration start, and it never moves forward. -/
theorem c4_natspec_absorption (content : List Char) (startPos : Nat) :
    (rfindSub (content.take startPos) (cs "/**") = none →
      natspecStartOf content startPos = startPos) ∧
    (∀ m, rfindSub (content.take startPos) (cs "/**") = some m →
      natspecStartOf content startPos =
        (if isCompleteDocBlockUpToWs ((content.take startPos).drop m) then m
         else startPos)) ∧
    natspecStartOf content startPos ≤ startPos := by
  have hnone : rfindSub (content.take startPos) (cs "/**") = none →
      natspecStartOf content startPos = startPos := by
    intro h
    unfold natspecStartOf
    rw [h]
  have hsome : ∀ m, rfindSub (content.take startPos) (cs "/**") = some m →
      natspecStartOf content startPos =
        (if isCompleteDocBlockUpToWs ((content.take startPos).drop m) then m
         else startPos) := by
    intro m h
    unfold natspecStartOf
    rw [h]
    unfold isCompleteDocBlockUpToWs
    rfl
  refine ⟨hnone, hsome, ?_⟩
  cases h : rfindSub (content.take startPos) (cs "/**") with
  | none =>
    rw [hnone h]
  | some m =>
    rw [hsome m h]
    have hb := (rfindSub_mem _ _ m h).1
    rw [List.length_take] at hb
    split
    · omega
    · exact Nat.le_refl startPos

/-- C4 amended witness: when the text between the marker and the declaration
is a complete documentation block up to surrounding whitespace, the span start
is extended to the marker. -/
theorem c4_natspec_absorption_witness :
    natspecStartOf (cs "/** d */\nfunction bar() \x7b\x7d\n") 9 = 0 ∧
      isCompleteDocBlockUpToWs
          (((cs "/** d */\nfunction bar() \x7b\x7d\n").take 9).drop 0) =
        true := by
  have h :=
    (c4_natspec_absorption (cs "/** d */\nfunction bar() \x7b\x7d\n") 9).2.1 0
      (by decide)
  rw [h]
  exact ⟨by decide, by decide⟩

/-! ## Claim C5: counting versus deletion ordering across files -/

/-- C5 counterexample: directory mode processes files independently, so file
deletions are not deferred until the whole batch is counted.  With file A
`function helper() { bar(); }` and file B `function bar() {}` the name `bar`
occurs twice before any deletion (so a batch-first counter would keep it), yet
the run deletes `helper` from A first, counts `bar` on the mutated state as 1
while processing B, and flags both functions (total 2); with deletion off the
total is 1. -/
theorem c5_batch_order_counterexample :
    (runVacuum true [cs "^test"]
          [cs "function helper() \x7b bar(); \x7d\n",
            cs "function bar() \x7b\x7d\n"]).1 = 2 ∧
      (runVacuum false [cs "^test"]
          [cs "function helper() \x7b bar(); \x7d\n",
            cs "function bar() \x7b\x7d\n"]).1 = 1 ∧
      alGet
          (count_function_occurrences
            [cs "function helper() \x7b bar(); \x7d\n",
              cs "function bar() \x7b\x7d\n"]
            [cs "bar"])
          (cs "bar") = some 2 ∧
      alGet
          (count_function_occurrences
            (process_single_file true [cs "^test"]
                [cs "function helper() \x7b bar(); \x7d\n",
                  cs "function bar() \x7b\x7d\n"] 0).2
            [cs "bar"])
          (cs "bar") = some 1 :=
  ⟨by decide, by decide, by decide, by decide⟩

/-- C5 amended: within a single file's processing the occurrence counts are
computed from the filesystem state as it is before that file's deletion, so
enabling deletion never changes that same file's classification or unused
total, and with deletion off the state is untouched; across files of a
directory run, however, there is no batch barrier — each file is counted
against the state left by previously processed files, so an earlier file's
deletions can change a later file's counts (see the counterexample). -/
theorem c5_within_file_count_before_delete
    (ignorePatterns : List (List Char)) (fs : List (List Char)) (i : Nat) :
    (process_single_file true ignorePatterns fs i).1 =
      (process_single_file false ignorePatterns fs i).1 ∧
    (process_single_file false ignorePatterns fs i).2 = fs := by
  unfold process_single_file
  simp

/-! ## Claim C6: unterminated brace nesting -/

/-- C6 counterexample: on `function foo() {` with no closing brace followed by
`function bar();`, the pass leaves `foo`'s text untouched and continues with
`bar`, but emits no notice at all about the skipped `foo` — the only
per-function output of the pass is the removal notice for `bar`, so the
condition is not reported, refuting that part of the claim. -/
theorem c6_unterminated_counterexample :
    remove_unused_functions (cs "function foo() \x7b\nfunction bar();\n")
        [cs "foo", cs "bar"] =
      (cs "function foo() \x7b\n", [cs "bar"]) := by
  decide

/-- C6 amended: when the brace depth never returns to 0 before end-of-text,
the function's text is left completely untouched and the pass silently
continues with the remaining functions exactly as if the name were absent —
no notice is emitted for the skip and the run does not fail. -/
theorem c6_unterminated_skip (content name : List Char)
    (rest : List (List Char)) (s e p : Nat)
    (hf : findDecl name content = some (s, e))
    (hs : scanStop (content.drop e) e = some (p, false))
    (hb : (braceLoop (content.drop (p + 1)) 1 (p + 1)).1 ≠ 0) :
    removeOneFunction content name = (content, false) ∧
    remove_unused_functions content (name :: rest) =
      remove_unused_functions content rest := by
  have h1 : computeEndPos content e = none := by
    unfold computeEndPos
    rw [hs]
    simp only []
    rw [if_neg hb]
  have h2 : removeOneFunction content name = (content, false) := by
    unfold removeOneFunction
    rw [hf]
    simp only [h1]
  refine ⟨h2, ?_⟩
  unfold remove_unused_functions
  rw [List.foldl_cons]
  congr 1
  simp [h2]

/-- C6 amended witness: the unterminated `foo` is skipped in place and the
pass continues as if only `bar` had been listed. -/
theorem c6_unterminated_skip_witness :
    remove_unused_functions (cs "function foo() \x7b\nfunction bar();\n")
        [cs "foo", cs "bar"] =
      remove_unused_functions (cs "function foo() \x7b\nfunction bar();\n")
        [cs "bar"] :=
  (c6_unterminated_skip (cs "function foo() \x7b\nfunction bar();\n")
    (cs "foo") [cs "bar"] 0 13 15 (by decide) (by decide) (by decide)).2

/-! ## Position bounds of the span computation -/

/-- A Boolean prefix is no longer than its target. -/
theorem length_le_of_isPrefixOf :
    ∀ (a b : List Char), a.isPrefixOf b = true → a.length ≤ b.length := by
  intro a
  induction a with
  | nil => intro b _; simp
  | cons c r ih =>
    intro b h
    cases b with
    | nil => simp [List.isPrefixOf] at h
    | cons d t =>
      simp only [List.isPrefixOf, Bool.and_eq_true] at h
      have := ih t h.2
      simp only [List.length_cons]
      omega

/-- Decomposition of a successful named-declaration match: the match length
splits into the keyword, the mandatory whitespace run, the name, the optional
whitespace run and the parenthesis, the length fits in the text, and the name
itself starts right after the whitespace run. -/
theorem matchDeclNamedLen_decomp (name s : List Char) (len : Nat)
    (h : matchDeclNamedLen name s = some len) :
    ∃ w w2, 1 ≤ w ∧ len = 8 + w + name.length + w2 + 1 ∧ len ≤ s.length ∧
      name.isPrefixOf (s.drop (8 + w)) = true := by
  unfold matchDeclNamedLen at h
  simp only [] at h
  split at h
  case isFalse => simp at h
  case isTrue h8 =>
    split at h
    case isTrue => simp at h
    case isFalse hw =>
      split at h
      case isFalse => simp at h
      case isTrue hname =>
        split at h
        case h_2 => simp at h
        case h_1 c0 tail hsplit =>
          injection h with hlen
          have h8len : (8 : Nat) ≤ s.length := by
            have := length_le_of_isPrefixOf (cs "function") s h8
            simpa using this
          refine ⟨((s.drop 8).takeWhile isWs).length,
            ((((s.drop 8).drop ((s.drop 8).takeWhile isWs).length).drop
                name.length).takeWhile isWs).length, by omega, by omega, ?_, ?_⟩
          · have hwle := length_le_of_isPrefixOf _ _
              (isPrefixOf_takeWhile isWs (s.drop 8))
            rw [List.length_drop] at hwle
            have hnmle := length_le_of_isPrefixOf _ _ hname
            rw [List.length_drop] at hnmle
            have hlenrest := congrArg List.length hsplit
            simp only [List.length_drop, List.length_cons] at hlenrest
            omega
          · rw [List.drop_drop] at hname
            exact hname

/-- The scanning search reports a position at or after its start index, and
the reported span is a declaration match of the remaining suffix. -/
theorem findDeclAux_spec (name : List Char) :
    ∀ (s : List Char) (prev : Option Char) (i a b : Nat),
      findDeclAux name s prev i = some (a, b) →
      i ≤ a ∧ ∃ len, matchDeclNamedLen name (s.drop (a - i)) = some len ∧
        b = a + len := by
  intro s
  induction s with
  | nil => intro prev i a b h; simp [findDeclAux] at h
  | cons c rest ih =>
    intro prev i a b h
    rw [findDeclAux] at h
    have hcont : findDeclAux name rest (some c) (i + 1) = some (a, b) →
        i ≤ a ∧ ∃ len, matchDeclNamedLen name ((c :: rest).drop (a - i)) =
          some len ∧ b = a + len := by
      intro h'
      obtain ⟨hia, len, hm, hb⟩ := ih (some c) (i + 1) a b h'
      refine ⟨by omega, len, ?_, hb⟩
      have : a - i = (a - (i + 1)) + 1 := by omega
      rw [this, List.drop_succ_cons]
      exact hm
    by_cases hbnd : boundaryOk prev = true
    · rw [if_pos hbnd] at h
      cases hm : matchDeclNamedLen name (c :: rest) with
      | some len =>
        rw [hm] at h
        injection h with h'
        injection h' with h1 h2
        subst h1
        refine ⟨le_rfl, len, ?_, h2.symm⟩
        simpa using hm
      | none =>
        rw [hm] at h
        exact hcont h
    · rw [if_neg hbnd] at h
      exact hcont h

/-- Bounds and match decomposition for `Regex::find` on the whole text. -/
theorem findDecl_spec (name content : List Char) (a b : Nat)
    (h : findDecl name content = some (a, b)) :
    a < b ∧ b ≤ content.length ∧
      ∃ len, matchDeclNamedLen name (content.drop a) = some len ∧
        b = a + len := by
  obtain ⟨-, len, hm, hb⟩ := findDeclAux_spec name content none 0 a b h
  rw [Nat.sub_zero] at hm
  obtain ⟨w, w2, hw, hlen, hle, -⟩ := matchDeclNamedLen_decomp name _ len hm
  have hdl : (content.drop a).length = content.length - a := List.length_drop ..
  constructor
  · omega
  · constructor
    · omega
    · exact ⟨len, hm, hb⟩

/-- The bracket loop never moves its position beyond the end of the text. -/
theorem braceLoop_le :
    ∀ (s : List Char) (cnt i : Nat),
      i ≤ (braceLoop s cnt i).2 ∧ (braceLoop s cnt i).2 ≤ i + s.length := by
  intro s
  induction s with
  | nil => intro cnt i; simp [braceLoop]
  | cons c rest ih =>
    intro cnt i
    rw [braceLoop]
    by_cases hz : cnt = 0
    · rw [if_pos hz]
      simp
    · rw [if_neg hz]
      have := ih (if c = '{' then cnt + 1 else if c = '}' then cnt - 1 else cnt)
        (i + 1)
      simp only [List.length_cons]
      omega

/-- The computed span end stays within the text and after the match end. -/
theorem computeEndPos_bounds (content : List Char) (matEnd e : Nat)
    (h : computeEndPos content matEnd = some e) :
    matEnd < e ∧ e ≤ content.length := by
  unfold computeEndPos at h
  cases hs : scanStop (content.drop matEnd) matEnd with
  | none => rw [hs] at h; simp at h
  | some pb =>
    rw [hs] at h
    obtain ⟨p, b⟩ := pb
    obtain ⟨hip, hlt, -, -⟩ := scanStop_spec _ _ p b hs
    rw [List.length_drop] at hlt
    cases b with
    | true =>
      simp only [] at h
      injection h with he
      omega
    | false =>
      simp only [] at h
      split at h
      · injection h with he
        have hbl := braceLoop_le (content.drop (p + 1)) 1 (p + 1)
        rw [List.length_drop] at hbl
        omega
      · simp at h

/-- A successful index search reports an index inside the list, counting from
the start offset. -/
theorem findIdx?_some_lt :
    ∀ (s : List Char) (p : Char → Bool) (i k : Nat),
      List.findIdx? p s i = some k → i ≤ k ∧ k < i + s.length := by
  intro s
  induction s with
  | nil => intro p i k h; simp [List.findIdx?] at h
  | cons c rest ih =>
    intro p i k h
    rw [List.findIdx?] at h
    by_cases hp : p c = true
    · rw [if_pos hp] at h
      injection h with h'
      subst h'
      simp only [List.length_cons]
      omega
    · rw [if_neg hp] at h
      have := ih p (i + 1) k h
      simp only [List.length_cons]
      omega

/-- The next-line start never exceeds the text length. -/
theorem nextLineStartOf_le (content : List Char) (endPos : Nat) :
    nextLineStartOf content endPos ≤ content.length := by
  unfold nextLineStartOf
  cases h : (content.drop endPos).findIdx? (fun c => c = '\n') with
  | none => exact le_rfl
  | some off =>
    have hlt := findIdx?_some_lt _ _ 0 off h
    rw [List.length_drop] at hlt
    show endPos + off + 1 ≤ content.length
    omega

/-- The line start never exceeds the position it is computed for. -/
theorem lineStartOf_le (content : List Char) (n : Nat) :
    lineStartOf content n ≤ n := by
  unfold lineStartOf
  cases h : rfindSub (content.take n) ['\n'] with
  | none => exact Nat.zero_le n
  | some q =>
    obtain ⟨hq, hpre⟩ := rfindSub_mem _ _ q h
    have hne : 1 ≤ ((content.take n).drop q).length :=
      length_le_of_isPrefixOf ['\n'] _ hpre
    rw [List.length_drop, List.length_take] at hne
    show q + 1 ≤ n
    omega

/-- The absorbed span start never exceeds the declaration start. -/
theorem natspecStartOf_le (content : List Char) (startPos : Nat) :
    natspecStartOf content startPos ≤ startPos := by
  unfold natspecStartOf
  cases h : rfindSub (content.take startPos) (cs "/**") with
  | none => exact le_rfl
  | some m =>
    obtain ⟨hm, hpre⟩ := rfindSub_mem _ _ m h
    have hne : 3 ≤ ((content.take startPos).drop m).length :=
      length_le_of_isPrefixOf (cs "/**") _ hpre
    rw [List.length_drop, List.length_take] at hne
    show (if isCompleteDocBlockUpToWs ((content.take startPos).drop m) = true
      then m else startPos) ≤ startPos
    split
    · omega
    · exact le_rfl

/-! ## Claim C8: the deletion routine's position arithmetic -/

/-- Guarded model of the Rust slice `&s[..i]`: `none` where Rust would panic
(bound out of range; on the ASCII text of this model every index is a
character boundary). -/
def sliceTo (s : List Char) (i : Nat) : Option (List Char) :=
  if i ≤ s.length then some (s.take i) else none

/-- Guarded model of the Rust slice `&s[i..]`. -/
def sliceFrom (s : List Char) (i : Nat) : Option (List Char) :=
  if i ≤ s.length then some (s.drop i) else none

/-- Guarded model of the Rust slice `&s[i..j]`. -/
def sliceBetween (s : List Char) (i j : Nat) : Option (List Char) :=
  if i ≤ j ∧ j ≤ s.length then some ((s.take j).drop i) else none

/-- `removeOneFunction` with every Rust string slice guarded: the guards model
the panics of `&content[..start_pos]`, `&content[m..start_pos]`,
`&content[..natspec_start]`, `&content[end_pos..]`, `&content[..line_start]`
and `&content[next_line_start..]`; any out-of-range slice yields `none`
instead of a value. -/
def removeOneFunctionChecked (content name : List Char) :
    Option (List Char × Bool) :=
  match findDecl name content with
  | none => some (content, false)
  | some (startPos, matEnd) =>
    match computeEndPos content matEnd with
    | none => some (content, false)
    | some endPos =>
      (sliceTo content startPos).bind fun pre =>
        (match rfindSub pre (cs "/**") with
          | none => some startPos
          | some m =>
            (sliceBetween content m startPos).map fun betweenRaw =>
              if (cs "/**").isPrefixOf (trimChars betweenRaw) &&
                  (cs "*/").isSuffixOf (trimChars betweenRaw) then m
              else startPos).bind fun natspecStart =>
          (sliceTo content natspecStart).bind fun preNat =>
            (sliceFrom content endPos).bind fun tailFromEnd =>
              (sliceTo content
                  (match rfindSub preNat ['\n'] with
                    | some q => q + 1
                    | none => 0)).bind fun keepHead =>
                (if (match tailFromEnd.findIdx? (fun c => c = '\n') with
                      | some off => endPos + off + 1
                      | none => content.length) < content.length then
                    (sliceFrom content
                        (match tailFromEnd.findIdx? (fun c => c = '\n') with
                          | some off => endPos + off + 1
                          | none => content.length)).map
                      fun keepTail => keepHead ++ keepTail
                  else some keepHead).map fun newContent => (newContent, true)

/-- C8: on the character-list model (ASCII text, where Rust byte offsets and
character indices coincide), every slice taken by the deletion routine is in
bounds, so the guarded routine always succeeds and agrees with the unguarded
one — the routine never panics, for every file content and function name. -/
theorem c8_no_panic (content name : List Char) :
    removeOneFunctionChecked content name =
      some (removeOneFunction content name) := by
  unfold removeOneFunctionChecked removeOneFunction
  cases hf : findDecl name content with
  | none => rfl
  | some se =>
    obtain ⟨startPos, matEnd⟩ := se
    simp only []
    cases he : computeEndPos content matEnd with
    | none => rfl
    | some endPos =>
      simp only []
      obtain ⟨hab, hblen, len, hm, hbe⟩ :=
        findDecl_spec name content startPos matEnd hf
      obtain ⟨hme, helen⟩ := computeEndPos_bounds content matEnd endPos he
      have hsp : startPos ≤ content.length := by omega
      have h1 : sliceTo content startPos = some (content.take startPos) := by
        unfold sliceTo
        rw [if_pos hsp]
      rw [h1, Option.some_bind]
      have hnat :
          (match rfindSub (content.take startPos) (cs "/**") with
            | none => some startPos
            | some m =>
              (sliceBetween content m startPos).map fun betweenRaw =>
                if (cs "/**").isPrefixOf (trimChars betweenRaw) &&
                    (cs "*/").isSuffixOf (trimChars betweenRaw) then m
                else startPos) =
            some (natspecStartOf content startPos) := by
        unfold natspecStartOf
        cases hr : rfindSub (content.take startPos) (cs "/**") with
        | none => rfl
        | some m =>
          have hmle := (rfindSub_mem _ _ m hr).1
          rw [List.length_take] at hmle
          have h2 : sliceBetween content m startPos =
              some ((content.take startPos).drop m) := by
            unfold sliceBetween
            rw [if_pos ⟨by omega, hsp⟩]
          simp only []
          rw [h2, Option.map_some']
      rw [hnat, Option.some_bind]
      have hns := natspecStartOf_le content startPos
      have h3 : sliceTo content (natspecStartOf content startPos) =
          some (content.take (natspecStartOf content startPos)) := by
        unfold sliceTo
        rw [if_pos (by omega)]
      rw [h3, Option.some_bind]
      have h4 : sliceFrom content endPos = some (content.drop endPos) := by
        unfold sliceFrom
        rw [if_pos helen]
      rw [h4, Option.some_bind]
      have hls : (match rfindSub
            (content.take (natspecStartOf content startPos)) ['\n'] with
          | some q => q + 1
          | none => 0) = lineStartOf content (natspecStartOf content startPos) := by
        unfold lineStartOf
        rfl
      rw [hls]
      have hll := lineStartOf_le content (natspecStartOf content startPos)
      have h5 : sliceTo content
          (lineStartOf content (natspecStartOf content startPos)) =
          some (content.take
            (lineStartOf content (natspecStartOf content startPos))) := by
        unfold sliceTo
        rw [if_pos (by omega)]
      rw [h5, Option.some_bind]
      have hnls : (match (content.drop endPos).findIdx? (fun c => c = '\n') with
          | some off => endPos + off + 1
          | none => content.length) = nextLineStartOf content endPos := by
        unfold nextLineStartOf
        rfl
      rw [hnls]
      by_cases hcmp : nextLineStartOf content endPos < content.length
      · rw [if_pos hcmp, if_pos hcmp]
        have h6 : sliceFrom content (nextLineStartOf content endPos) =
            some (content.drop (nextLineStartOf content endPos)) := by
          unfold sliceFrom
          rw [if_pos (by omega)]
        rw [h6, Option.map_some', Option.map_some']
      · rw [if_neg hcmp, if_neg hcmp, Option.map_some']
        rw [List.append_nil]

/-! ## Occurrence bookkeeping for the deletion pass -/

/-- A Boolean prefix of a truncation is a Boolean prefix of the whole list. -/
theorem isPrefixOf_of_take :
    ∀ (a l : List Char) (k : Nat), a.isPrefixOf (l.take k) = true →
      a.isPrefixOf l = true := by
  intro a
  induction a with
  | nil => intro l k _; simp [List.isPrefixOf]
  | cons c r ih =>
    intro l k h
    cases k with
    | zero => simp [List.isPrefixOf] at h
    | succ k' =>
      cases l with
      | nil => simp [List.isPrefixOf] at h
      | cons d l' =>
        rw [List.take_succ_cons] at h
        simp only [List.isPrefixOf, Bool.and_eq_true] at h ⊢
        exact ⟨h.1, ih l' k' h.2⟩

/-- A Boolean prefix of an append no longer than the first part is a Boolean
prefix of that part. -/
theorem isPrefixOf_of_append_le :
    ∀ (a x y : List Char), a.isPrefixOf (x ++ y) = true →
      a.length ≤ x.length → a.isPrefixOf x = true := by
  intro a
  induction a with
  | nil => intro x y _ _; simp [List.isPrefixOf]
  | cons c r ih =>
    intro x y h hlen
    cases x with
    | nil => simp at hlen
    | cons d x' =>
      rw [List.cons_append] at h
      simp only [List.isPrefixOf, Bool.and_eq_true] at h ⊢
      refine ⟨h.1, ih x' y h.2 ?_⟩
      simp only [List.length_cons] at hlen
      omega

/-- Characters of a Boolean prefix agree with the target's characters. -/
theorem isPrefixOf_getD :
    ∀ (a l : List Char), a.isPrefixOf l = true →
      ∀ (k : Nat) (d : Char), k < a.length → l.getD k d = a.getD k d := by
  intro a
  induction a with
  | nil => intro l _ k d hk; simp at hk
  | cons c r ih =>
    intro l h k d hk
    cases l with
    | nil => simp [List.isPrefixOf] at h
    | cons e l' =>
      simp only [List.isPrefixOf, Bool.and_eq_true] at h
      cases k with
      | zero =>
        simp only [List.getD]
        have : e = c := (beq_iff_eq.mp h.1).symm
        simp [this]
      | succ k' =>
        simp only [List.length_cons] at hk
        have := ih l' h.2 k' d (by omega)
        simpa using this

/-- Indexing with a default on the left part of an append. -/
theorem getD_append_left :
    ∀ (P S : List Char) (j : Nat) (d : Char), j < P.length →
      (P ++ S).getD j d = P.getD j d := by
  intro P
  induction P with
  | nil => intro S j d hj; simp at hj
  | cons c P' ih =>
    intro S j d hj
    cases j with
    | zero => simp [List.getD]
    | succ j' =>
      simp only [List.length_cons] at hj
      simp only [List.cons_append, List.getD_cons_succ]
      exact ih S j' d (by omega)

/-- Indexing with a default inside a truncation. -/
theorem getD_take_eq :
    ∀ (l : List Char) (n j : Nat) (d : Char), j < n →
      (l.take n).getD j d = l.getD j d := by
  intro l
  induction l with
  | nil => intro n j d _; simp
  | cons c l' ih =>
    intro n j d hj
    cases n with
    | zero => omega
    | succ n' =>
      rw [List.take_succ_cons]
      cases j with
      | zero => simp [List.getD]
      | succ j' =>
        simp only [List.getD_cons_succ]
        exact ih n' j' d (by omega)

/-- Occurrence positions are strictly inside the text for non-empty
patterns. -/
theorem occ_pos_lt (s pat : List Char) (i : Nat) (hne : pat ≠ [])
    (h : pat.isPrefixOf (s.drop i) = true) : i < s.length := by
  have hlen := length_le_of_isPrefixOf _ _ h
  rw [List.length_drop] at hlen
  have : 1 ≤ pat.length := by
    cases pat with
    | nil => exact absurd rfl hne
    | cons a b => simp
  omega

/-- A non-empty pattern that occurs somewhere has a positive position
count. -/
theorem occCount_pos (s pat : List Char) (hne : pat ≠ [])
    (h : occursIn s pat) : 0 < occCount s pat := by
  obtain ⟨i, hi⟩ := h
  rw [occCount, Finset.card_pos]
  refine ⟨i, ?_⟩
  rw [Finset.mem_filter, Finset.mem_range]
  exact ⟨by have := occ_pos_lt s pat i hne hi; omega, hi⟩

/-- Two distinct occurrence positions contradict a count of at most one. -/
theorem two_occ_contra (s pat : List Char) (a b : Nat) (hne : pat ≠ [])
    (ha : pat.isPrefixOf (s.drop a) = true)
    (hb : pat.isPrefixOf (s.drop b) = true) (hab : a ≠ b)
    (hocc : occCount s pat ≤ 1) : False := by
  have hsub : ({a, b} : Finset Nat) ⊆
      (Finset.range (s.length + 1)).filter
        (fun i => pat.isPrefixOf (s.drop i) = true) := by
    intro x hx
    rw [Finset.mem_insert, Finset.mem_singleton] at hx
    rw [Finset.mem_filter, Finset.mem_range]
    rcases hx with hx | hx
    · rw [hx]
      exact ⟨by have := occ_pos_lt s pat a hne ha; omega, ha⟩
    · rw [hx]
      exact ⟨by have := occ_pos_lt s pat b hne hb; omega, hb⟩
  have := Finset.card_le_card hsub
  rw [Finset.card_pair hab] at this
  rw [occCount] at hocc
  omega

/-- Where an occurrence in the spliced text `take L ++ drop R` comes from:
entirely inside the kept head (an occurrence of the original at the same
position), or entirely inside the kept tail (an occurrence of the original
shifted by the removed window), provided the pattern cannot contain the
newline that ends the kept head. -/
theorem seam_occ (content pat : List Char) (L R i : Nat)
    (hL : L ≤ content.length) (_hLR : L ≤ R) (_hR : R ≤ content.length)
    (hnl : L = 0 ∨ content.getD (L - 1) ' ' = '\n')
    (hpat : '\n' ∉ pat)
    (hocc : pat.isPrefixOf ((content.take L ++ content.drop R).drop i) = true) :
    (i + pat.length ≤ L ∧ pat.isPrefixOf (content.drop i) = true) ∨
      (L ≤ i ∧ pat.isPrefixOf (content.drop (R + (i - L))) = true) := by
  have hPlen : (content.take L).length = L := by
    rw [List.length_take]
    omega
  by_cases hcase1 : i + pat.length ≤ L
  · left
    refine ⟨hcase1, ?_⟩
    have hiP : i ≤ (content.take L).length := by omega
    rw [List.drop_append_of_le_length (by omega)] at hocc
    have hx := isPrefixOf_of_append_le pat _ _ hocc
      (by rw [List.length_drop, hPlen]; omega)
    have hy := isPrefixOf_of_take pat _ _ (by
      rw [List.drop_take] at hx
      exact hx)
    exact hy
  · by_cases hcase2 : L ≤ i
    · right
      refine ⟨hcase2, ?_⟩
      have hsplit : i = (content.take L).length + (i - L) := by omega
      rw [hsplit, List.drop_append] at hocc
      rw [List.drop_drop] at hocc
      exact hocc
    · exfalso
      have hiL : i < L := by omega
      have hcross : L - 1 - i < pat.length := by omega
      have hchar := isPrefixOf_getD pat _ hocc (L - 1 - i) ' ' hcross
      rw [getD_drop_eq] at hchar
      have hidx : i + (L - 1 - i) = L - 1 := by omega
      rw [hidx] at hchar
      have hleft : ((content.take L ++ content.drop R) : List Char).getD
          (L - 1) ' ' = (content.take L).getD (L - 1) ' ' :=
        getD_append_left _ _ _ _ (by omega)
      rw [hleft] at hchar
      rw [getD_take_eq content L (L - 1) ' ' (by omega)] at hchar
      have hnl' : content.getD (L - 1) ' ' = '\n' := by
        rcases hnl with h0 | h0
        · omega
        · exact h0
      rw [hnl'] at hchar
      have : '\n' ∈ pat := by
        rw [hchar]
        rw [List.getD_eq_getElem pat ' ' hcross]
        exact List.getElem_mem hcross
      exact hpat this

/-- The next-line start is at or after the span end. -/
theorem nextLineStartOf_ge (content : List Char) (endPos : Nat)
    (h : endPos ≤ content.length) : endPos ≤ nextLineStartOf content endPos := by
  unfold nextLineStartOf
  cases hx : (content.drop endPos).findIdx? (fun c => c = '\n') with
  | none =>
    show endPos ≤ content.length
    exact h
  | some off =>
    show endPos ≤ endPos + off + 1
    omega

/-- The computed line start is 0 or sits just after a newline. -/
theorem lineStartOf_newline (content : List Char) (n : Nat) :
    lineStartOf content n = 0 ∨
      content.getD (lineStartOf content n - 1) ' ' = '\n' := by
  unfold lineStartOf
  cases h : rfindSub (content.take n) ['\n'] with
  | none => left; rfl
  | some q =>
    right
    obtain ⟨hq, hpre⟩ := rfindSub_mem _ _ q h
    have hql : q < (content.take n).length := by
      have := length_le_of_isPrefixOf ['\n'] _ hpre
      rw [List.length_drop] at this
      simp only [List.length_singleton] at this
      omega
    have hchar := isPrefixOf_getD ['\n'] _ hpre 0 ' ' (by simp)
    rw [getD_drop_eq] at hchar
    rw [List.length_take] at hql
    rw [Nat.add_zero] at hchar
    rw [getD_take_eq content n q ' ' (by omega)] at hchar
    show content.getD (q + 1 - 1) ' ' = '\n'
    have hq0 : q + 1 - 1 = q := by omega
    rw [hq0]
    exact hchar

/-- What a successful removal does to the text: it keeps a head `take L` and
a tail `drop R`, the head ends at a line start, and the removed window
`[L, R)` contains an occurrence of the name (inside the declaration
match). -/
theorem removeOne_true_decomp (content name newC : List Char)
    (h : removeOneFunction content name = (newC, true)) :
    ∃ L R p, newC = content.take L ++ content.drop R ∧
      L ≤ content.length ∧ L ≤ R ∧ R ≤ content.length ∧
      (L = 0 ∨ content.getD (L - 1) ' ' = '\n') ∧
      L ≤ p ∧ p + name.length ≤ R ∧
      name.isPrefixOf (content.drop p) = true := by
  unfold removeOneFunction at h
  cases hf : findDecl name content with
  | none => rw [hf] at h; simp at h
  | some se =>
    rw [hf] at h
    obtain ⟨startPos, matEnd⟩ := se
    simp only [] at h
    cases he : computeEndPos content matEnd with
    | none => rw [he] at h; simp at h
    | some endPos =>
      rw [he] at h
      simp only [] at h
      injection h with h1 _
      obtain ⟨hab, hblen, len, hm, hbe⟩ :=
        findDecl_spec name content startPos matEnd hf
      obtain ⟨hme, helen⟩ := computeEndPos_bounds content matEnd endPos he
      obtain ⟨w, w2, hw1, hlen', hlenle, hpre⟩ :=
        matchDeclNamedLen_decomp name _ len hm
      rw [List.drop_drop] at hpre
      rw [List.length_drop] at hlenle
      have hns := natspecStartOf_le content startPos
      have hls := lineStartOf_le content (natspecStartOf content startPos)
      have hnls := nextLineStartOf_le content endPos
      have hnlg := nextLineStartOf_ge content endPos helen
      refine ⟨lineStartOf content (natspecStartOf content startPos),
        nextLineStartOf content endPos, startPos + (8 + w), ?_, by omega,
        by omega, hnls, lineStartOf_newline content _, by omega, by omega,
        hpre⟩
      rw [← h1]
      by_cases hcmp : nextLineStartOf content endPos < content.length
      · rw [if_pos hcmp]
      · rw [if_neg hcmp]
        rw [List.drop_eq_nil_of_le (by omega)]

/-- Splicing a window out of the text never increases the number of
occurrence positions of a newline-free pattern. -/
theorem occCount_splice_le (content pat : List Char) (L R : Nat)
    (hL : L ≤ content.length) (hLR : L ≤ R) (hR : R ≤ content.length)
    (hnl : L = 0 ∨ content.getD (L - 1) ' ' = '\n')
    (hpat : '\n' ∉ pat) (hpne : pat ≠ []) :
    occCount (content.take L ++ content.drop R) pat ≤ occCount content pat := by
  have hp1 : 1 ≤ pat.length := by
    cases pat with
    | nil => exact absurd rfl hpne
    | cons a b => simp
  unfold occCount
  apply Finset.card_le_card_of_injOn
    (fun i => if i + pat.length ≤ L then i else R + (i - L))
  · intro i hi
    rw [Finset.mem_filter, Finset.mem_range] at hi
    obtain ⟨-, hiocc⟩ := hi
    rcases seam_occ content pat L R i hL hLR hR hnl hpat hiocc with
      ⟨hle, hocc'⟩ | ⟨hge, hocc'⟩
    · rw [Finset.mem_filter, Finset.mem_range]
      rw [if_pos hle]
      exact ⟨by omega, hocc'⟩
    · have hcond : ¬(i + pat.length ≤ L) := by omega
      rw [Finset.mem_filter, Finset.mem_range]
      rw [if_neg hcond]
      have := occ_pos_lt content pat _ hpne hocc'
      exact ⟨by omega, hocc'⟩
  · intro i hi j hj hij
    rw [Finset.mem_coe, Finset.mem_filter, Finset.mem_range] at hi hj
    obtain ⟨-, hiocc⟩ := hi
    obtain ⟨-, hjocc⟩ := hj
    simp only [] at hij
    by_cases ci : i + pat.length ≤ L
    · by_cases cj : j + pat.length ≤ L
      · rwa [if_pos ci, if_pos cj] at hij
      · rcases seam_occ content pat L R j hL hLR hR hnl hpat hjocc with
          ⟨hle, -⟩ | ⟨hge, -⟩
        · exact absurd hle cj
        · rw [if_pos ci, if_neg cj] at hij
          omega
    · rcases seam_occ content pat L R i hL hLR hR hnl hpat hiocc with
        ⟨hle, -⟩ | ⟨hgei, -⟩
      · exact absurd hle ci
      · by_cases cj : j + pat.length ≤ L
        · rw [if_neg ci, if_pos cj] at hij
          omega
        · rcases seam_occ content pat L R j hL hLR hR hnl hpat hjocc with
            ⟨hle, -⟩ | ⟨hgej, -⟩
          · exact absurd hle cj
          · rw [if_neg ci, if_neg cj] at hij
            omega

/-- A successful removal of a name occurring at most once leaves no
occurrence of it in the resulting text. -/
theorem removeOne_success_occ (content name newC : List Char)
    (hpat : '\n' ∉ name) (hne : name ≠ [])
    (hocc : occCount content name ≤ 1)
    (h : removeOneFunction content name = (newC, true)) :
    occCount newC name = 0 := by
  obtain ⟨L, R, p, hnew, hL, hLR, hR, hnl, hLp, hpR, hpocc⟩ :=
    removeOne_true_decomp content name newC h
  subst hnew
  have hp1 : 1 ≤ name.length := by
    cases name with
    | nil => exact absurd rfl hne
    | cons a b => simp
  rw [occCount, Finset.card_eq_zero, Finset.filter_eq_empty_iff]
  intro i _
  intro hcon
  rcases seam_occ content name L R i hL hLR hR hnl hpat hcon with
    ⟨hle, hocc'⟩ | ⟨hge, hocc'⟩
  · exact two_occ_contra content name i p hne hocc' hpocc (by omega) hocc
  · exact two_occ_contra content name (R + (i - L)) p hne hocc' hpocc
      (by omega) hocc

/-- A skipped name leaves the buffer unchanged. -/
theorem removeOne_false_eq (content name c' : List Char)
    (h : removeOneFunction content name = (c', false)) : c' = content := by
  unfold removeOneFunction at h
  cases hf : findDecl name content with
  | none =>
    rw [hf] at h
    injection h with h1 _
    exact h1.symm
  | some se =>
    rw [hf] at h
    obtain ⟨startPos, matEnd⟩ := se
    simp only [] at h
    cases he : computeEndPos content matEnd with
    | none =>
      rw [he] at h
      injection h with h1 _
      exact h1.symm
    | some endPos =>
      rw [he] at h
      simp only [] at h
      injection h with _ h2
      simp at h2

/-- Invariant of the deletion fold: listed names that are non-empty,
newline-free and occur at most once keep that bound as the buffer shrinks,
and every name reported removed has no occurrence left in the final
buffer. -/
theorem removal_fold_inv (names : List (List Char)) :
    ∀ (content : List Char) (acc : List (List Char)),
      (∀ n ∈ names, n ≠ [] ∧ '\n' ∉ n ∧ occCount content n ≤ 1) →
      (∀ n ∈ acc, n ≠ [] ∧ '\n' ∉ n ∧ occCount content n = 0) →
      ∀ n ∈ (names.foldl
          (fun st n =>
            let r := removeOneFunction st.1 n
            (r.1, if r.2 then st.2 ++ [n] else st.2)) (content, acc)).2,
        n ≠ [] ∧ '\n' ∉ n ∧
          occCount (names.foldl
            (fun st n =>
              let r := removeOneFunction st.1 n
              (r.1, if r.2 then st.2 ++ [n] else st.2)) (content, acc)).1
            n = 0 := by
  induction names with
  | nil =>
    intro content acc _ hacc
    simpa using hacc
  | cons hd tl ih =>
    intro content acc hnames hacc
    rw [List.foldl_cons]
    simp only []
    rcases hrm : removeOneFunction content hd with ⟨newC, flag⟩
    cases flag with
    | false =>
      have hcc : newC = content := removeOne_false_eq content hd newC hrm
      subst hcc
      simp only [if_neg (by simp : ¬(false = true))]
      exact ih newC acc (fun n hn => hnames n (List.mem_cons_of_mem hd hn))
        hacc
    | true =>
      simp only [if_pos rfl]
      obtain ⟨hhdne, hhdnl, hhdocc⟩ := hnames hd (List.mem_cons_self hd tl)
      obtain ⟨L, R, p, hnew, hL, hLR, hR, hnl, -, -, -⟩ :=
        removeOne_true_decomp content hd newC hrm
      have hz : occCount newC hd = 0 :=
        removeOne_success_occ content hd newC hhdnl hhdne hhdocc hrm
      apply ih newC (acc ++ [hd])
      · intro n hn
        obtain ⟨hne, hnlf, hle⟩ := hnames n (List.mem_cons_of_mem hd hn)
        refine ⟨hne, hnlf, ?_⟩
        have := occCount_splice_le content n L R hL hLR hR hnl hnlf hne
        rw [← hnew] at this
        omega
      · intro n hn
        rcases List.mem_append.mp hn with hn' | hn'
        · obtain ⟨hne, hnlf, hze⟩ := hacc n hn'
          refine ⟨hne, hnlf, ?_⟩
          have := occCount_splice_le content n L R hL hLR hR hnl hnlf hne
          rw [← hnew] at this
          omega
        · rw [List.mem_singleton] at hn'
          subst hn'
          exact ⟨hhdne, hhdnl, hz⟩

/-! ## Claim C7: idempotence of deletion -/

/-- C7 counterexample: in the file
`x function` + newline + `function foo() {}` + newline + `foo()`, the pass
removes `foo` (the run is reachable: with a counting root that does not
contain this file, `foo`'s count is 0, so it is classified unused).  Removing
the declaration's lines glues `x function` + newline directly onto `foo()`,
which re-forms a declaration `function` + newline + `foo(` — re-running the
extraction finds the removed name again. -/
theorem c7_idempotence_counterexample :
    (remove_unused_functions (cs "x function\nfunction foo() \x7b\x7d\nfoo()\n")
        [cs "foo"]).2 = [cs "foo"] ∧
      (cs "foo") ∈ extract_functions
        (remove_unused_functions
          (cs "x function\nfunction foo() \x7b\x7d\nfoo()\n") [cs "foo"]).1 :=
  ⟨by decide, by decide⟩

/-- C7 amended: deletion is idempotent on the set of remaining functions
provided every listed name is a non-empty word-character token with at most
one textual occurrence in the file — which holds for the pipeline's removal
lists whenever the analyzed file lies under the counting root, since a name
occurring twice in its own file is counted at least 2 and kept.  Under that
premise, re-running the name extraction on the pass's output finds none of
the names the pass removed. -/
theorem c7_deletion_idempotent (content : List Char)
    (names : List (List Char))
    (hnames : ∀ n ∈ names, n ≠ [] ∧ (∀ c ∈ n, isWordChar c = true) ∧
      occCount content n ≤ 1) :
    ∀ n ∈ (remove_unused_functions content names).2,
      n ∉ extract_functions (remove_unused_functions content names).1 := by
  have hres := removal_fold_inv names content []
    (fun n hn =>
      ⟨(hnames n hn).1,
        fun hmem => by
          have := (hnames n hn).2.1 '\n' hmem
          exact absurd this (by decide),
        (hnames n hn).2.2⟩)
    (by simp)
  intro n hn hext
  have hrw : remove_unused_functions content names =
      names.foldl
        (fun st n =>
          let r := removeOneFunction st.1 n
          (r.1, if r.2 then st.2 ++ [n] else st.2)) (content, []) := rfl
  rw [hrw] at hn hext
  have h0 := hres n hn
  have hpos := occCount_pos _ n h0.1 (extract_functions_mem _ n hext).2.2
  omega

/-- C7 amended witness: a file declaring `foo` once has it removed and the
re-extraction of the result no longer finds it. -/
theorem c7_deletion_idempotent_witness :
    (remove_unused_functions (cs "function foo() \x7b\x7d\n") [cs "foo"]).2 =
        [cs "foo"] ∧
      (cs "foo") ∉ extract_functions
        (remove_unused_functions (cs "function foo() \x7b\x7d\n")
          [cs "foo"]).1 :=
  ⟨by decide,
    c7_deletion_idempotent (cs "function foo() \x7b\x7d\n") [cs "foo"]
      (by decide) (cs "foo") (by decide)⟩
